import Mathlib

/-!
A shallow embedding of the playback core of `TimedViewer.py` (repository
zeittresor/timedviewer), together with theorems checking the natural-language
specification against it.

Conventions of the embedding:
* Python file paths are `String`s; timestamps and durations are `ℚ`.
* Python `int(x)` (truncation toward zero) is `pytrunc`; Python `//` on
  possibly-negative integers is `Int.fdiv` (floor division), on clearly
  non-negative quantities plain `ℕ` division.
* The filesystem is passed in explicitly: the flattened result of `os.walk`
  is a list of entries, the ledger file contents a list of lines, and the
  success of `pygame.image.load` an oracle `loadOk : String → Bool`
  (`load_and_scale_image` returns `None` exactly when loading raises).
* Surfaces are modelled as functions from `ℤ × ℤ` pixel coordinates to a
  `Color` that records the provenance of the pixel as a convex combination of
  the current image, the next image and the black background; an opaque image
  pixel carries the identity of its image.  Randomness (block shuffle,
  diagonal/roll direction, Random effect) lives in the per-transition cache,
  modelled as explicit parameters fixed for the transition.
-/

/-- Python `int(x)`: truncation toward zero. -/
def pytrunc (q : ℚ) : ℤ := if q < 0 then ⌈q⌉ else ⌊q⌋

/-! ### Image Catalog Scanner (`get_image_files`, lines 44-52) -/

/-- `IMAGE_EXTENSIONS = ['.png', '.jpg', '.jpeg', '.bmp', '.gif']` (line 17). -/
def IMAGE_EXTENSIONS : List String := [".png", ".jpg", ".jpeg", ".bmp", ".gif"]

/-- Python `str.lower()`, character by character. -/
def str_lower (s : String) : String := String.mk (s.data.map Char.toLower)

/-- Index of the last `'.'` in a character list (CPython `p.rfind(extsep)`),
`none` when there is no dot. -/
def last_dot_index (cs : List Char) : Option ℕ :=
  match cs.reverse.findIdx? (fun c => c == '.') with
  | none => none
  | some r => some (cs.length - 1 - r)

/-- The extension part of `os.path.splitext(name)` for a bare file name
(no path separators, as produced by `os.walk`): the suffix from the last dot,
provided some earlier character of the name is not a dot (leading dots do not
start an extension). -/
def splitext_ext (name : String) : String :=
  match last_dot_index name.data with
  | none => ""
  | some d =>
    if (name.data.take d).any (fun c => c != '.') then String.mk (name.data.drop d)
    else ""

/-- The test `os.path.splitext(file)[1].lower() in IMAGE_EXTENSIONS` (line 48). -/
def is_image_file (name : String) : Bool :=
  IMAGE_EXTENSIONS.contains (str_lower (splitext_ext name))

/-- One file produced by walking the watched directory: its bare name as
enumerated by `os.walk`, its absolute path, and its modification time. -/
structure FsEntry where
  name : String
  path : String
  mtime : ℚ
deriving DecidableEq

/-- `get_image_files(directory)` (lines 44-52): keep the walked files whose
extension matches the allow-list, then sort ascending by modification time.
The argument is the flattened `os.walk` enumeration; an empty or inaccessible
directory enumerates to `[]` (`os.walk` swallows errors by default). -/
def get_image_files (walk : List FsEntry) : List FsEntry :=
  (walk.filter (fun e => is_image_file e.name)).mergeSort (fun a b => a.mtime ≤ b.mtime)

/-! ### Displayed-Set Ledger (lines 68-87, 145-193) -/

/-- `load_displayed_images` (lines 68-79): the set of first fields of the rows
of the protocol csv; a missing or unreadable file yields the empty set.  The
argument is the list of first fields of the readable rows. -/
def load_displayed_images (rows : List String) : List String := rows

/-- The `skip_count` computation of the `-allprotocolminusK` branches of
`initialize_protocol` (lines 150-152 and 166-168). -/
def minusK_skip_count (n K : ℕ) : ℕ := if n < K then n else K

/-- `images_to_write = all_images[:len(all_images) - skip_count]`
(lines 153 and 169). -/
def images_to_write_minusK (all_images : List String) (K : ℕ) : List String :=
  all_images.take (all_images.length - minusK_skip_count all_images.length K)

/-- `initialize_protocol` (lines 145-193), returning the in-memory displayed
set it builds.  `catalog` is `get_image_files(directory)` (paths only) and
`ledger_rows` the contents of the protocol file for the resume branch. -/
def initialize_protocol (catalog : List String) (ledger_rows : List String)
    (useProtocol initAll initAllMinus10 initAllMinus75 : Bool) : List String :=
  if useProtocol then
    if initAllMinus75 then images_to_write_minusK catalog 75
    else if initAllMinus10 then images_to_write_minusK catalog 10
    else if initAll then catalog
    else load_displayed_images ledger_rows
  else []

/-! ### Image loading (`load_and_scale_image`, lines 54-66) -/

/-- A decoded raw image: its pixel dimensions. -/
structure RawImage where
  w : ℕ
  h : ℕ

/-- `load_and_scale_image` (lines 54-66).  `decoded` is the outcome of
`pygame.image.load` + `convert_alpha`: `none` when they raise `pygame.error`
(then the function prints and returns `None`), otherwise the raw image, which
is scaled by `min(screen_w/w, screen_h/h)` with `int` truncation. -/
def load_and_scale_image (decoded : Option RawImage) (screenW screenH : ℕ) :
    Option (ℕ × ℕ) :=
  match decoded with
  | none => none
  | some img =>
    let ratio : ℚ := min ((screenW : ℚ) / img.w) ((screenH : ℚ) / img.h)
    some ((pytrunc (img.w * ratio)).toNat, (pytrunc (img.h * ratio)).toNat)

/-! ### The poll cycle of the ledger path of `run_viewer` (lines 542-560)

The `for image_file in image_files:` loop skips files already in
`displayed_images`; for the first remaining file it attempts a load; on
success it takes that file and breaks, on failure (`load_and_scale_image`
returned `None`) the `for` loop continues with the next file. -/

/-- The selection made by one poll cycle: the first catalog path that is not
in the displayed set and loads successfully. -/
def poll_select (displayed : List String) (loadOk : String → Bool) :
    List String → Option String
  | [] => none
  | f :: rest =>
    if displayed.contains f then poll_select displayed loadOk rest
    else if loadOk f then some f else poll_select displayed loadOk rest

/-- The displayed set after a poll cycle: on a successful selection the chosen
path is added (lines 553-555), otherwise the set is unchanged. -/
def poll_update (displayed : List String) (loadOk : String → Bool)
    (catalog : List String) : List String :=
  match poll_select displayed loadOk catalog with
  | some f => displayed ++ [f]
  | none => displayed

/-- The displayed set after `k` poll cycles over a fixed catalog, starting
from the initial set `S`; the load oracle may differ from cycle to cycle. -/
def displayed_after (catalog : List String) (loadOk : ℕ → String → Bool)
    (S : List String) : ℕ → List String
  | 0 => S
  | k + 1 => poll_update (displayed_after catalog loadOk S k) (loadOk k) catalog

/-! ### Order of effects when a new image is taken (lines 550-560) -/

/-- The state-changing statements executed, in program order, once
`load_and_scale_image` succeeded for the chosen path (lines 550-560). -/
inductive ViewerEv
  | setNextImage
  | chooseEffectEv
  | recordLedger
  | addDisplayedSet
  | setTransitionStart
  | clearCache
  | setCacheEffect
deriving DecidableEq

/-- The event trace of lines 550-560: `next_image = loaded_image`,
`chosen_effect = choose_effect(...)`, `save_displayed_image(...)` (only when
the ledger is active), `displayed_images.add(...)`,
`transition_start_time = current_time`, `transition_cache.clear()`,
`transition_cache['effect'] = chosen_effect`. -/
def new_image_events (useProtocol : Bool) : List ViewerEv :=
  [ViewerEv.setNextImage, ViewerEv.chooseEffectEv]
    ++ (if useProtocol then [ViewerEv.recordLedger] else [])
    ++ [ViewerEv.addDisplayedSet, ViewerEv.setTransitionStart,
        ViewerEv.clearCache, ViewerEv.setCacheEffect]

/-! ### One frame-loop iteration of the ledger path (lines 530-596) -/

/-- The controller state of the ledger path of `run_viewer`: the in-memory
displayed set, the poll timer, the two image slots (abstracted to the path of
the image they hold) and the transition start time. -/
structure VState where
  displayed : List String
  lastCheck : ℚ
  currentImg : Option String
  nextImg : Option String
  transitionStart : Option ℚ
deriving DecidableEq

/-- One iteration of the `while running:` loop of the ledger path
(lines 530-596), with drawing elided (it does not change controller state).
First the poll check (lines 542-560): whenever `now - lastCheck ≥ interval`
the catalog is re-scanned and `poll_select` may pick a new `next`, recording
it and (re)starting the transition — there is no mid-transition guard.  Then
the transition phase (lines 562-579): while `elapsed < td` a frame is drawn;
once `elapsed ≥ td` the final frame is drawn and `next` is promoted to
`current`. -/
def viewer_tick (interval td : ℚ) (catalog : List String)
    (loadOk : String → Bool) (now : ℚ) (s : VState) : VState :=
  let s1 :=
    if interval ≤ now - s.lastCheck then
      match poll_select s.displayed loadOk catalog with
      | some f =>
        { s with lastCheck := now, displayed := s.displayed ++ [f],
                 nextImg := some f, transitionStart := some now }
      | none => { s with lastCheck := now }
    else s
  match s1.transitionStart with
  | some t0 =>
    if now - t0 < td then s1
    else { s1 with currentImg := s1.nextImg, nextImg := none,
                   transitionStart := none }
  | none => s1

/-! ### The loop / yo-yo path of `run_viewer` (lines 403-519) -/

/-- `get_next_image_loop` (lines 418-427), without the load: returns the new
`image_list`, the new `current_index` and the path indexed (if any). -/
def loop_advance (catalog imageList : List String) (idx : ℤ) :
    List String × ℤ × Option String :=
  let p : List String × ℤ :=
    if imageList.isEmpty || (imageList.length : ℤ) - 1 ≤ idx then (catalog, -1)
    else (imageList, idx)
  if p.1.isEmpty then (p.1, p.2, none)
  else (p.1, p.2 + 1, p.1.get? (p.2 + 1).toNat)

/-- `get_next_image_yoyo` (lines 429-445), without the load: returns the new
`image_list`, the new `current_index`, the new `direction` and the path
indexed (if any).  The candidate index `current_index + direction` is clamped
to `len - 1` (flipping the direction to `-1`) when it would run past the top,
and to `0` (flipping to `1`) when it would run below the bottom. -/
def yoyo_advance (catalog imageList : List String) (idx dir : ℤ) :
    List String × ℤ × ℤ × Option String :=
  let p : List String × ℤ :=
    if imageList.isEmpty then (catalog, if 0 < dir then -1 else (catalog.length : ℤ))
    else (imageList, idx)
  if p.1.isEmpty then (p.1, p.2, dir, none)
  else
    let newIdx := p.2 + dir
    let q : ℤ × ℤ :=
      if (p.1.length : ℤ) ≤ newIdx then ((p.1.length : ℤ) - 1, -1)
      else if newIdx < 0 then (0, 1)
      else (newIdx, dir)
    (p.1, q.1, q.2, p.1.get? q.1.toNat)

/-- The yo-yo index state after `k` calls of `get_next_image_yoyo` over a
fixed catalog, from the initial state `image_list = []`, `current_index = -1`,
`direction = 1` (lines 410-416). -/
def yoyo_state (catalog : List String) : ℕ → List String × ℤ × ℤ
  | 0 => ([], -1, 1)
  | k + 1 =>
    let s := yoyo_state catalog k
    let r := yoyo_advance catalog s.1 s.2.1 s.2.2
    (r.1, r.2.1, r.2.2.1)

/-- The controller state of the loop / yo-yo path (lines 403-519). -/
structure LoopState where
  currentImg : Option String
  nextImg : Option String
  transitionStart : Option ℚ
  lastCheck : ℚ
  imageList : List String
  currentIndex : ℤ
  direction : ℤ
deriving DecidableEq

/-- One iteration of the `while running:` loop of the loop / yo-yo path
(lines 459-513), with drawing elided.  The poll check (lines 470-471) only
updates `last_check_time`.  While a transition is in flight nothing else
changes; when it completes `next` is promoted; when no transition is active
the next image is fetched immediately (lines 491-512) and, if it loaded, a
new transition starts. -/
def loopmode_tick (yoyo : Bool) (interval td : ℚ) (catalog : List String)
    (loadOk : String → Bool) (now : ℚ) (s : LoopState) : LoopState :=
  let s1 := if interval ≤ now - s.lastCheck then { s with lastCheck := now } else s
  match s1.transitionStart with
  | some t0 =>
    if now - t0 < td then s1
    else { s1 with currentImg := s1.nextImg, nextImg := none,
                   transitionStart := none }
  | none =>
    let r : List String × ℤ × ℤ × Option String :=
      if yoyo then yoyo_advance catalog s1.imageList s1.currentIndex s1.direction
      else
        let l := loop_advance catalog s1.imageList s1.currentIndex
        (l.1, l.2.1, s1.direction, l.2.2)
    let img := r.2.2.2.bind (fun q => if loadOk q then some q else none)
    { s1 with imageList := r.1, currentIndex := r.2.1, direction := r.2.2.1,
              nextImg := img,
              transitionStart := if img.isSome then some now else s1.transitionStart }

/-- `alpha = elapsed / effective_td if effective_td > 0 else 1.0`
(lines 478 and 567). -/
def transition_alpha (elapsed td : ℚ) : ℚ := if 0 < td then elapsed / td else 1

/-! ### Transition Renderer (lines 212-341)

A frame maps pixel coordinates to the convex combination of the three
provenances (current image, next image, black background) that pygame's
alpha blending would produce there. -/

/-- The provenance mix of one surface pixel: the weights of the current
image, the next image and the background. -/
structure Color where
  c : ℚ
  n : ℚ
  b : ℚ
deriving DecidableEq

/-- The cleared surface (`screen.fill((0, 0, 0))`). -/
def bgColor : Color := ⟨0, 0, 1⟩

/-- A pixel of the current image. -/
def curColor : Color := ⟨1, 0, 0⟩

/-- A pixel of the next image. -/
def nxtColor : Color := ⟨0, 1, 0⟩

/-- Alpha blending: source with opacity `a` over destination. -/
def blend (a : ℚ) (src dst : Color) : Color :=
  ⟨a * src.c + (1 - a) * dst.c, a * src.n + (1 - a) * dst.n,
   a * src.b + (1 - a) * dst.b⟩

/-- A rendered surface. -/
abbrev Frame := ℤ → ℤ → Color

/-- A blit destination rectangle on the surface. -/
structure BRect where
  ox : ℤ
  oy : ℤ
  w : ℕ
  h : ℕ

/-- Whether pixel `(x, y)` lies in the rectangle. -/
def BRect.mem (r : BRect) (x y : ℤ) : Bool :=
  decide (r.ox ≤ x) && decide (x < r.ox + r.w) &&
  decide (r.oy ≤ y) && decide (y < r.oy + r.h)

/-- `screen.blit` of a uniform-provenance source with surface alpha
`a` (as a fraction of 255) onto rectangle `r`. -/
def blit (f : Frame) (r : BRect) (a : ℚ) (src : Color) : Frame :=
  fun x y => if r.mem x y then blend a src (f x y) else f x y

/-- The fully cleared frame (`screen.fill((0, 0, 0))`, line 310). -/
def baseFill : Frame := fun _ _ => bgColor

/-- The left/top coordinate produced by
`img.get_rect(center=(S//2, T//2))`: `S//2 - w//2`. -/
def centerOff (S w : ℕ) : ℤ := ((S / 2 : ℕ) : ℤ) - ((w / 2 : ℕ) : ℤ)

/-- The offset `(S - w) // 2` used by the Dissolve and Paint effects
(lines 241-242 and 331-332); Python floor division. -/
def subOff (S w : ℕ) : ℤ := Int.fdiv ((S : ℤ) - (w : ℤ)) 2

/-- The surface alpha `int(255 * (1 - alpha))` given to the current image by
Fade, Paint and Roll (lines 237, 286, 314). -/
def fade_current_alpha (a : ℚ) : ℤ := pytrunc (255 * (1 - a))

/-- The surface alpha `int(255 * alpha)` given to the next image by Fade and
Roll (lines 291, 318). -/
def fade_next_alpha (a : ℚ) : ℤ := pytrunc (255 * a)

/-- A pygame surface alpha value as a blending fraction. -/
def alphaFrac (v : ℤ) : ℚ := (v : ℚ) / 255

/-- The current image drawn centered with alpha `int(255 * (1 - alpha))`
over `f0` — the shared opening of Fade (lines 312-315), Paint (lines
235-238) and Roll (lines 284-287); skipped when there is no current image. -/
def draw_faded_current (f0 : Frame) (W H : ℕ) (cur : Option (ℕ × ℕ))
    (a : ℚ) : Frame :=
  match cur with
  | none => f0
  | some (cw, ch) =>
    blit f0 ⟨centerOff W cw, centerOff H ch, cw, ch⟩
      (alphaFrac (fade_current_alpha a)) curColor

/-- The `Fade` branch of `draw_transition` (lines 311-319). -/
def draw_fade (f0 : Frame) (W H : ℕ) (cur nxt : Option (ℕ × ℕ)) (a : ℚ) :
    Frame :=
  let f1 := draw_faded_current f0 W H cur a
  match nxt with
  | none => f1
  | some (nw, nh) =>
    blit f1 ⟨centerOff W nw, centerOff H nh, nw, nh⟩
      (alphaFrac (fade_next_alpha a)) nxtColor

/-- One dissolve block `(x, y, w, h)` in surface coordinates. -/
structure Block where
  x : ℕ
  y : ℕ
  w : ℕ
  h : ℕ
deriving DecidableEq

/-- Python `range(0, stop, step)` for `step > 0`. -/
def pyrange (stop step : ℕ) : List ℕ :=
  (List.range ((stop + step - 1) / step)).map (· * step)

/-- `generate_dissolve_blocks` (lines 212-221) before the shuffle: the grid
of `block_size`-sized tiles clipped at the right and bottom edges.  The
shuffle is modelled by letting the cached block list be any permutation of
this list. -/
def generate_dissolve_blocks (W H bs : ℕ) : List Block :=
  (pyrange H bs).flatMap (fun y =>
    (pyrange W bs).map (fun x => ⟨x, y, min bs (W - x), min bs (H - y)⟩))

/-- `revealed_count = int(total_blocks * alpha)` (line 325). -/
def dissolve_revealed_count (total : ℕ) (a : ℚ) : ℤ := pytrunc ((total : ℚ) * a)

/-- The bounds test of the Dissolve block loop (lines 331-334): the block is
drawn unless its image-local rectangle sticks out of the next image. -/
def block_in_next (W H nw nh : ℕ) (blk : Block) : Bool :=
  let sx : ℤ := (blk.x : ℤ) - subOff W nw
  let sy : ℤ := (blk.y : ℤ) - subOff H nh
  !(decide (sx < 0) || decide (sy < 0) ||
    decide ((nw : ℤ) < sx + blk.w) || decide ((nh : ℤ) < sy + blk.h))

/-- The destination rectangle of a dissolve block blit (line 336). -/
def blockRect (blk : Block) : BRect := ⟨(blk.x : ℤ), (blk.y : ℤ), blk.w, blk.h⟩

/-- The `Dissolve` branch of `draw_transition` (lines 320-336): the current
image drawn opaquely, then the first `revealed_count` cached blocks of the
next image, skipping blocks that fall outside the next image. -/
def draw_dissolve (f0 : Frame) (W H : ℕ) (cur nxt : Option (ℕ × ℕ)) (a : ℚ)
    (blocks : List Block) : Frame :=
  let f1 :=
    match cur with
    | none => f0
    | some (cw, ch) =>
      blit f0 ⟨centerOff W cw, centerOff H ch, cw, ch⟩ 1 curColor
  match nxt with
  | none => f1
  | some (nw, nh) =>
    (blocks.take (dissolve_revealed_count blocks.length a).toNat).foldl
      (fun g blk =>
        if block_in_next W H nw nh blk then blit g (blockRect blk) 1 nxtColor
        else g) f1

/-- The four diagonal directions of the Paint effect (line 232). -/
inductive PaintDir
  | TL2BR
  | TR2BL
  | BL2TR
  | BR2TL
deriving DecidableEq

/-- `x_cut = int(diagonal_line - rowOffset)` where
`diagonal_line = alpha * (screen_width + screen_height)` (lines 243-246). -/
def paint_x_cut (W H : ℕ) (a : ℚ) (rowOffset : ℚ) : ℤ :=
  pytrunc (a * ((W : ℚ) + (H : ℚ)) - rowOffset)

/-- The order in which `draw_paint_transition` visits the rows of the next
image: top-down for the two top-anchored diagonals (lines 245, 253),
bottom-up for the two bottom-anchored ones (lines 262, 270). -/
def paint_rows (dir : PaintDir) (nh : ℕ) : List ℕ :=
  match dir with
  | .TL2BR | .TR2BL => List.range nh
  | .BL2TR | .BR2TL => (List.range nh).map (fun i => nh - 1 - i)

/-- The row offset along the diagonal used for the cut of image row `y`:
`y + nx_off_y` for the top-anchored diagonals (lines 246, 254) and
`(nh - 1 - y) + nx_off_y` for the bottom-anchored ones (lines 263, 271). -/
def paint_cut_row (dir : PaintDir) (nh y : ℕ) : ℕ :=
  match dir with
  | .TL2BR | .TR2BL => y
  | .BL2TR | .BR2TL => nh - 1 - y

/-- `reveal_width = min(x_cut, next_image.get_width())`, as a natural number
(`0` when the cut is not positive). -/
def paint_reveal_width (W H nw nh : ℕ) (offY : ℤ) (dir : PaintDir) (a : ℚ)
    (y : ℕ) : ℕ :=
  (min (paint_x_cut W H a ((paint_cut_row dir nh y : ℚ) + (offY : ℚ))) (nw : ℤ)).toNat

/-- The guard of the per-row blit: `x_cut > 0` and `reveal_width > 0`
(lines 247-249 etc.). -/
def paint_guard (W H nw nh : ℕ) (offY : ℤ) (dir : PaintDir) (a : ℚ)
    (y : ℕ) : Bool :=
  decide (0 < paint_x_cut W H a ((paint_cut_row dir nh y : ℚ) + (offY : ℚ))) &&
  decide (0 < paint_reveal_width W H nw nh offY dir a y)

/-- The destination rectangle of the per-row blit: a `reveal_width × 1` strip
of row `y`, anchored at the left edge of the next image for the left-to-right
diagonals (lines 250-251, 267-268) and at `x_start = nw - reveal_width` for
the right-to-left ones (lines 258-260, 275-277). -/
def paint_rect (W H nw nh : ℕ) (offX offY : ℤ) (dir : PaintDir) (a : ℚ)
    (y : ℕ) : BRect :=
  let rw := paint_reveal_width W H nw nh offY dir a y
  match dir with
  | .TL2BR | .BL2TR => ⟨offX, offY + (y : ℤ), rw, 1⟩
  | .TR2BL | .BR2TL => ⟨offX + ((nw - rw : ℕ) : ℤ), offY + (y : ℤ), rw, 1⟩

/-- `draw_paint_transition` (lines 230-277): the current image faded at
`1 - alpha` over `f0`, then — unless there is no next image — each visited
row of the next image revealed up to its cut. -/
def draw_paint_transition (f0 : Frame) (W H : ℕ) (cur nxt : Option (ℕ × ℕ))
    (a : ℚ) (dir : PaintDir) : Frame :=
  let f1 := draw_faded_current f0 W H cur a
  match nxt with
  | none => f1
  | some (nw, nh) =>
    let offX := subOff W nw
    let offY := subOff H nh
    (paint_rows dir nh).foldl
      (fun g y =>
        if paint_guard W H nw nh offY dir a y then
          blit g (paint_rect W H nw nh offX offY dir a y) 1 nxtColor
        else g) f1

/-- The four roll directions (line 281). -/
inductive RollDir
  | TOP2DOWN
  | DOWN2TOP
  | LEFT2RIGHT
  | RIGHT2LEFT
deriving DecidableEq

/-- `roll_offset = int((1 - alpha) * dim)` (lines 293, 297, 301, 305). -/
def roll_offset (dim : ℕ) (a : ℚ) : ℤ := pytrunc ((1 - a) * (dim : ℚ))

/-- The destination rectangle of the rolling next image: centered, displaced
by `roll_offset` along the chosen axis (lines 292-307). -/
def roll_rect (W H nw nh : ℕ) (dir : RollDir) (a : ℚ) : BRect :=
  match dir with
  | .TOP2DOWN => ⟨centerOff W nw, centerOff H nh - roll_offset H a, nw, nh⟩
  | .DOWN2TOP => ⟨centerOff W nw, centerOff H nh + roll_offset H a, nw, nh⟩
  | .LEFT2RIGHT => ⟨centerOff W nw - roll_offset W a, centerOff H nh, nw, nh⟩
  | .RIGHT2LEFT => ⟨centerOff W nw + roll_offset W a, centerOff H nh, nw, nh⟩

/-- `draw_roll_transition` (lines 279-307): the current image faded at
`1 - alpha`, then the next image at alpha `int(255 * alpha)` sliding in along
the chosen axis. -/
def draw_roll_transition (f0 : Frame) (W H : ℕ) (cur nxt : Option (ℕ × ℕ))
    (a : ℚ) (dir : RollDir) : Frame :=
  let f1 := draw_faded_current f0 W H cur a
  match nxt with
  | none => f1
  | some (nw, nh) =>
    blit f1 (roll_rect W H nw nh dir a) (alphaFrac (fade_next_alpha a)) nxtColor

/-- `draw_transition` (lines 309-341): clear the surface, dispatch on the
effect name, and present.  The per-transition cache entries (`blocks`,
`paint_dir`, `roll_dir`) are passed as parameters fixed for the transition. -/
def draw_transition (W H : ℕ) (cur nxt : Option (ℕ × ℕ)) (a : ℚ)
    (effect : String) (blocks : List Block) (pdir : PaintDir) (rdir : RollDir) :
    Frame :=
  if effect = "Fade" then draw_fade baseFill W H cur nxt a
  else if effect = "Dissolve" then draw_dissolve baseFill W H cur nxt a blocks
  else if effect = "Paint" then draw_paint_transition baseFill W H cur nxt a pdir
  else if effect = "Roll" then draw_roll_transition baseFill W H cur nxt a rdir
  else baseFill

/-- The frame showing exactly one image (uniform provenance `col`) on
rectangle `r` against the cleared background. -/
def pureFrame (r : BRect) (col : Color) : Frame :=
  fun x y => if r.mem x y then col else bgColor

/-! ## Auxiliary lemmas -/

theorem pytrunc_intCast (z : ℤ) : pytrunc (z : ℚ) = z := by
  unfold pytrunc
  split <;> simp

theorem pytrunc_mono {a b : ℚ} (h : a ≤ b) : pytrunc a ≤ pytrunc b := by
  unfold pytrunc
  split <;> split
  · exact Int.ceil_le_ceil h
  · refine le_trans (Int.ceil_le.mpr ?_) (Int.floor_nonneg.mpr (by linarith))
    push_cast
    linarith
  · rename_i ha hb
    exact absurd (lt_of_le_of_lt h hb) ha
  · exact Int.floor_le_floor h

theorem pytrunc_of_nonneg {q : ℚ} (h : 0 ≤ q) : pytrunc q = ⌊q⌋ := by
  unfold pytrunc
  rw [if_neg (not_lt.mpr h)]

theorem pytrunc_nonpos {q : ℚ} (h : q ≤ 0) : pytrunc q ≤ 0 := by
  unfold pytrunc
  split
  · refine Int.ceil_le.mpr ?_
    push_cast
    linarith
  · have h2 : ⌊q⌋ ≤ ⌊(0 : ℚ)⌋ := Int.floor_le_floor h
    simpa using h2

theorem contains_true_iff (l : List String) (a : String) :
    l.contains a = true ↔ a ∈ l := by
  simp [List.contains, List.elem_iff]

/-! ## C1: the ledger-consulting controller never re-selects -/

theorem poll_select_spec {displayed : List String} {loadOk : String → Bool} :
    ∀ {catalog : List String} {f : String},
    poll_select displayed loadOk catalog = some f →
    f ∈ catalog ∧ f ∉ displayed ∧ loadOk f = true := by
  intro catalog
  induction catalog with
  | nil => intro f h; simp [poll_select] at h
  | cons g rest ih =>
    intro f h
    rw [poll_select] at h
    split at h
    · obtain ⟨h1, h2, h3⟩ := ih h
      exact ⟨List.mem_cons_of_mem _ h1, h2, h3⟩
    · rename_i hc
      split at h
      · rename_i hl
        injection h with hfg
        subst hfg
        refine ⟨List.mem_cons_self _ _, ?_, hl⟩
        intro hf
        exact hc ((contains_true_iff _ _).mpr hf)
      · obtain ⟨h1, h2, h3⟩ := ih h
        exact ⟨List.mem_cons_of_mem _ h1, h2, h3⟩

theorem seed_subset_displayed_after (catalog : List String)
    (loadOk : ℕ → String → Bool) (S : List String) (k : ℕ) :
    S ⊆ displayed_after catalog loadOk S k := by
  induction k with
  | zero => exact fun x hx => hx
  | succ k ih =>
    intro x hx
    simp only [displayed_after, poll_update]
    cases h : poll_select (displayed_after catalog loadOk S k) (loadOk k) catalog with
    | none => exact ih hx
    | some f => exact List.mem_append_left _ (ih hx)

/-- C1: under any ledger-consulting policy, a poll cycle never selects a path
already in the in-memory displayed set: starting from an initial displayed
set `S`, over a fixed catalog `C`, every path chosen by any later poll cycle
is in `C`, outside the current displayed set, and in particular outside `S`
(so while selections happen they come from `C \ S`). -/
theorem C1_no_redisplay (catalog : List String) (loadOk : ℕ → String → Bool)
    (S : List String) (k : ℕ) (f : String)
    (h : poll_select (displayed_after catalog loadOk S k) (loadOk k) catalog = some f) :
    f ∈ catalog ∧ f ∉ displayed_after catalog loadOk S k ∧ f ∉ S := by
  obtain ⟨h1, h2, _⟩ := poll_select_spec h
  exact ⟨h1, h2, fun hf => h2 (seed_subset_displayed_after catalog loadOk S k hf)⟩

/-- Witness for C1 at a concrete catalog `["a", "b"]` seeded with `["a"]`. -/
theorem C1_no_redisplay_witness :
    "b" ∈ ["a", "b"] ∧ "b" ∉ displayed_after ["a", "b"] (fun _ _ => true) ["a"] 0 ∧
    "b" ∉ ["a"] :=
  C1_no_redisplay ["a", "b"] (fun _ _ => true) ["a"] 0 "b" (by decide)

/-! ## C6: behaviour on a load failure -/

/-- C6 counterexample: with catalog `["a", "b"]`, nothing displayed yet, and a
load oracle on which `"a"` fails to decode but `"b"` loads, the very same poll
cycle moves past `"a"` and selects `"b"` — the code tries the subsequent
eligible path within the same poll cycle (the `for` loop of lines 546-560
continues on a failed load), contrary to the claim that it does not. -/
theorem C6_counterexample :
    poll_select [] (fun p => p == "b") ["a", "b"] = some "b" ∧
    poll_update [] (fun p => p == "b") ["a", "b"] = ["b"] := by
  constructor <;> decide

/-- C6 (amended): when an eligible image fails to decode, the controller does
not crash (`load_and_scale_image` returns `None` on a decode error), never
selects or records the failing path, and moves on to the subsequent eligible
path within the *same* poll cycle (not only on the next poll); the failed
path is not added to the displayed set, so it is retried on a later poll
while it is still enumerated and unseen. -/
theorem C6_load_failure :
    (∀ (screenW screenH : ℕ), load_and_scale_image none screenW screenH = none) ∧
    (∀ (displayed : List String) (loadOk : String → Bool) (catalog : List String)
       (f : String), poll_select displayed loadOk catalog = some f →
       loadOk f = true) ∧
    (∀ (displayed : List String) (loadOk : String → Bool) (f : String)
       (rest : List String), loadOk f = false →
       poll_select displayed loadOk (f :: rest) = poll_select displayed loadOk rest) ∧
    (∀ (displayed : List String) (loadOk : String → Bool) (catalog : List String)
       (f : String), f ∉ displayed → loadOk f = false →
       f ∉ poll_update displayed loadOk catalog) := by
  refine ⟨fun _ _ => rfl, fun _ _ _ _ h => (poll_select_spec h).2.2, ?_, ?_⟩
  · intro displayed loadOk f rest hf
    rw [poll_select]
    split
    · rfl
    · rw [if_neg (by simp [hf])]
  · intro displayed loadOk catalog f hfd hf
    unfold poll_update
    cases h : poll_select displayed loadOk catalog with
    | none => exact hfd
    | some g =>
      intro hmem
      rcases List.mem_append.mp hmem with h1 | h1
      · exact hfd h1
      · have hg : loadOk g = true := (poll_select_spec h).2.2
        rw [List.mem_singleton.mp h1] at hf
        rw [hf] at hg
        exact Bool.false_ne_true hg

/-- Witness for C6 at a concrete failing path `"a"`. -/
theorem C6_load_failure_witness :
    poll_select [] (fun p => p == "b") ["a", "b"] = poll_select [] (fun p => p == "b") ["b"] ∧
    "a" ∉ poll_update [] (fun p => p == "b") ["a", "b"] := by
  constructor
  · exact C6_load_failure.2.2.1 [] (fun p => p == "b") "a" ["b"] (by decide)
  · exact C6_load_failure.2.2.2 [] (fun p => p == "b") ["a", "b"] "a" (by decide) (by decide)

/-! ## C2: the mark-all-minus-K initialization policies -/

theorem filter_not_contains_append (l1 l2 : List String)
    (h : ∀ a ∈ l2, a ∉ l1) :
    (l1 ++ l2).filter (fun p => !l1.contains p) = l2 := by
  rw [List.filter_append]
  have e1 : l1.filter (fun p => !l1.contains p) = [] := by
    rw [List.filter_eq_nil_iff]
    intro a ha
    simp [contains_true_iff, ha]
  have e2 : l2.filter (fun p => !l1.contains p) = l2 := by
    rw [List.filter_eq_self]
    intro a ha
    simp [contains_true_iff, h a ha]
  rw [e1, e2, List.nil_append]

theorem filter_not_contains_take (l : List String) (m : ℕ) (h : l.Nodup) :
    l.filter (fun p => !(l.take m).contains p) = l.drop m := by
  have h2 : (l.take m ++ l.drop m).Nodup := by
    rw [List.take_append_drop]
    exact h
  have h3 := (List.nodup_append.mp h2).2.2
  have h4 : ∀ a ∈ l.drop m, a ∉ l.take m := fun a ha hat => h3 hat ha
  have h5 := filter_not_contains_append (l.take m) (l.drop m) h4
  rwa [List.take_append_drop] at h5

/-- C2: for a catalog of `N` images sorted ascending by modification time,
initialization under the mark-all-minus-K policy (`K = 10` via
`-allprotocolminus10`, `K = 75` via `-allprotocolminus75`) writes exactly
`max 0 (N - K)` oldest entries (the longest proper prefix of the sorted
catalog of that length) to the ledger, leaves exactly `min N K` newest
entries eligible, and writes nothing when `N < K`. -/
theorem C2_mark_all_minus_K (catalog ledger : List String) (hnd : catalog.Nodup)
    (K : ℕ) (hK : K = 10 ∨ K = 75) :
    initialize_protocol catalog ledger true false true false
      = images_to_write_minusK catalog 10 ∧
    initialize_protocol catalog ledger true false false true
      = images_to_write_minusK catalog 75 ∧
    images_to_write_minusK catalog K = catalog.take (catalog.length - K) ∧
    ((images_to_write_minusK catalog K).length : ℤ)
      = max 0 ((catalog.length : ℤ) - (K : ℤ)) ∧
    catalog.filter (fun p => !(catalog.take (catalog.length - K)).contains p)
      = catalog.drop (catalog.length - K) ∧
    (catalog.drop (catalog.length - K)).length = min catalog.length K ∧
    (catalog.length < K → images_to_write_minusK catalog K = []) := by
  have htake : images_to_write_minusK catalog K = catalog.take (catalog.length - K) := by
    unfold images_to_write_minusK minusK_skip_count
    congr 1
    split <;> omega
  refine ⟨rfl, rfl, htake, ?_, ?_, ?_, ?_⟩
  · rw [htake, List.length_take]
    omega
  · exact filter_not_contains_take catalog (catalog.length - K) hnd
  · rw [List.length_drop]
    omega
  · intro hlt
    rw [htake]
    have h0 : catalog.length - K = 0 := by omega
    rw [h0, List.take_zero]

/-- Witness for C2 at a concrete three-element catalog. -/
theorem C2_mark_all_minus_K_witness :
    initialize_protocol ["a", "b", "c"] [] true false true false
      = images_to_write_minusK ["a", "b", "c"] 10 ∧
    initialize_protocol ["a", "b", "c"] [] true false false true
      = images_to_write_minusK ["a", "b", "c"] 75 ∧
    images_to_write_minusK ["a", "b", "c"] 10
      = List.take (List.length ["a", "b", "c"] - 10) ["a", "b", "c"] ∧
    ((images_to_write_minusK ["a", "b", "c"] 10).length : ℤ)
      = max 0 ((List.length ["a", "b", "c"] : ℤ) - (10 : ℤ)) ∧
    List.filter (fun p => !(List.take (List.length ["a", "b", "c"] - 10) ["a", "b", "c"]).contains p) ["a", "b", "c"]
      = List.drop (List.length ["a", "b", "c"] - 10) ["a", "b", "c"] ∧
    (List.drop (List.length ["a", "b", "c"] - 10) ["a", "b", "c"]).length
      = min (List.length ["a", "b", "c"]) 10 ∧
    (List.length ["a", "b", "c"] < 10 → images_to_write_minusK ["a", "b", "c"] 10 = []) :=
  C2_mark_all_minus_K ["a", "b", "c"] [] (by decide) 10 (Or.inl rfl)

/-! ## C3: the ledger append precedes the transition start -/

/-- C3: in the new-image branch of the poll cycle with the ledger active, the
durable-append (`save_displayed_image`) and the in-memory add happen strictly
before the transition start timestamp is set, and each occurs exactly once —
a path is never recorded after its display begins. -/
theorem C3_record_before_transition :
    (new_image_events true).indexOf ViewerEv.recordLedger
      < (new_image_events true).indexOf ViewerEv.setTransitionStart ∧
    (new_image_events true).indexOf ViewerEv.addDisplayedSet
      < (new_image_events true).indexOf ViewerEv.setTransitionStart ∧
    ViewerEv.recordLedger ∈ new_image_events true ∧
    ViewerEv.addDisplayedSet ∈ new_image_events true ∧
    ViewerEv.setTransitionStart ∈ new_image_events true ∧
    (new_image_events true).count ViewerEv.recordLedger = 1 ∧
    (new_image_events true).count ViewerEv.setTransitionStart = 1 := by
  decide

/-! ## C9: the Fade alphas at the transition midpoint -/

/-- C9 counterexample: with effect Fade, duration 2 s and elapsed 1 s
(progress `1/2`), the next image's surface alpha is `int(255 * 0.5) = 127`,
not `128` as the claim states (both alphas truncate `127.5` to `127`). -/
theorem C9_counterexample :
    fade_next_alpha (transition_alpha 1 2) ≠ 128 ∧
    fade_next_alpha (transition_alpha 1 2) = 127 := by
  have h : transition_alpha 1 2 = 1 / 2 := by
    unfold transition_alpha
    norm_num
  rw [h]
  constructor <;> norm_num [fade_next_alpha, pytrunc]

/-- C9 (amended): with effect Fade, duration 2 s, at elapsed 1 s the progress
is `1/2` and the rendered frame sets the current image's alpha to `127` of
255 and the next image's alpha to `127` of 255 as well — `int()` truncates
`255 × 0.5 = 127.5` to `127` in both expressions. -/
theorem C9_fade_midpoint :
    transition_alpha 1 2 = 1 / 2 ∧
    fade_current_alpha (1 / 2) = 127 ∧
    fade_next_alpha (1 / 2) = 127 := by
  refine ⟨?_, ?_, ?_⟩
  · unfold transition_alpha
    norm_num
  · norm_num [fade_current_alpha, pytrunc]
  · norm_num [fade_next_alpha, pytrunc]

/-! ## C10: unknown effect names composite nothing -/

/-- C10: for every effect string outside {Fade, Dissolve, Paint, Roll} and any
progress, `draw_transition` composites neither image: the presented frame is
exactly the surface cleared to the fixed black background color. -/
theorem C10_unknown_effect (W H : ℕ) (cur nxt : Option (ℕ × ℕ)) (a : ℚ)
    (effect : String) (blocks : List Block) (pdir : PaintDir) (rdir : RollDir)
    (h1 : effect ≠ "Fade") (h2 : effect ≠ "Dissolve") (h3 : effect ≠ "Paint")
    (h4 : effect ≠ "Roll") :
    draw_transition W H cur nxt a effect blocks pdir rdir = baseFill := by
  unfold draw_transition
  rw [if_neg h1, if_neg h2, if_neg h3, if_neg h4]

/-- Witness for C10 at the effect string `"Sparkle"`. -/
theorem C10_unknown_effect_witness :
    draw_transition 640 480 (some (640, 480)) (some (320, 240)) (1 / 2) "Sparkle"
      [] PaintDir.TL2BR RollDir.TOP2DOWN = baseFill :=
  C10_unknown_effect 640 480 (some (640, 480)) (some (320, 240)) (1 / 2) "Sparkle"
    [] PaintDir.TL2BR RollDir.TOP2DOWN (by decide) (by decide) (by decide) (by decide)

/-! ## C5: poll ticks and in-flight transitions -/

/-- C5 counterexample: in the ledger-consulting path, a poll tick that fires
mid-transition *does* re-scan and replaces the in-flight `next`.  Concretely:
interval 3 s, duration 5 s; at time 3 the first tick selects `"a"` and starts
its transition; at time 6 — while `"a"`'s transition is still in flight
(elapsed 3 < 5) — the next tick re-scans, finds the new file `"b"`, replaces
`next` by `"b"` and restarts the transition, contrary to the claim that the
catalog is only re-scanned when not mid-transition. -/
theorem C5_counterexample :
    (viewer_tick 3 5 ["a"] (fun _ => true) 3 ⟨[], 0, none, none, none⟩).transitionStart
      = some 3 ∧
    (viewer_tick 3 5 ["a"] (fun _ => true) 3 ⟨[], 0, none, none, none⟩).nextImg
      = some "a" ∧
    ((6 : ℚ) - 3 < 5) ∧
    (viewer_tick 3 5 ["a", "b"] (fun _ => true) 6
      (viewer_tick 3 5 ["a"] (fun _ => true) 3 ⟨[], 0, none, none, none⟩)).nextImg
      = some "b" ∧
    (viewer_tick 3 5 ["a", "b"] (fun _ => true) 6
      (viewer_tick 3 5 ["a"] (fun _ => true) 3 ⟨[], 0, none, none, none⟩)).transitionStart
      = some 6 := by
  have h1 : viewer_tick 3 5 ["a"] (fun _ => true) 3 ⟨[], 0, none, none, none⟩
      = ⟨["a"], 3, none, some "a", some 3⟩ := by
    unfold viewer_tick
    norm_num [poll_select]
  have h2 : viewer_tick 3 5 ["a", "b"] (fun _ => true) 6 ⟨["a"], 3, none, some "a", some 3⟩
      = ⟨["a", "b"], 6, none, some "b", some 6⟩ := by
    unfold viewer_tick
    norm_num [poll_select]
    simp +decide
  rw [h1, h2]
  refine ⟨rfl, rfl, by norm_num, rfl, rfl⟩

/-- C5 (amended): in the ledger-consulting path a poll tick re-scans the
catalog regardless of transition state — if the interval has elapsed and a
new eligible image loads while a transition is in flight, the in-flight
`next` is replaced by it and the transition restarts at the tick's time.
Only the loop / yo-yo path refrains from fetching a new image mid-transition:
there a mid-transition tick leaves `next`, the cached catalog, the index and
the transition start unchanged. -/
theorem C5_midtransition_rescan :
    (∀ (interval td : ℚ) (catalog : List String) (loadOk : String → Bool)
       (now : ℚ) (s : VState) (t0 : ℚ) (f : String),
       s.transitionStart = some t0 → now - t0 < td → 0 < td →
       interval ≤ now - s.lastCheck →
       poll_select s.displayed loadOk catalog = some f →
       (viewer_tick interval td catalog loadOk now s).nextImg = some f ∧
       (viewer_tick interval td catalog loadOk now s).transitionStart = some now) ∧
    (∀ (yoyo : Bool) (interval td : ℚ) (catalog : List String)
       (loadOk : String → Bool) (now : ℚ) (s : LoopState) (t0 : ℚ),
       s.transitionStart = some t0 → now - t0 < td →
       (loopmode_tick yoyo interval td catalog loadOk now s).nextImg = s.nextImg ∧
       (loopmode_tick yoyo interval td catalog loadOk now s).imageList = s.imageList ∧
       (loopmode_tick yoyo interval td catalog loadOk now s).currentIndex = s.currentIndex ∧
       (loopmode_tick yoyo interval td catalog loadOk now s).transitionStart
         = s.transitionStart) := by
  constructor
  · intro interval td catalog loadOk now s t0 f hts hmid htd hint hsel
    obtain ⟨d, lc, ci, ni, ts⟩ := s
    replace hts : ts = some t0 := hts
    subst hts
    replace hint : interval ≤ now - lc := hint
    replace hsel : poll_select d loadOk catalog = some f := hsel
    unfold viewer_tick
    simp only [hsel]
    rw [if_pos hint]
    simp only []
    rw [if_pos (show now - now < td by simpa using htd)]
    exact ⟨rfl, rfl⟩
  · intro yoyo interval td catalog loadOk now s t0 hts hmid
    obtain ⟨ci, ni, ts, lc, il, ix, dr⟩ := s
    replace hts : ts = some t0 := hts
    subst hts
    unfold loopmode_tick
    by_cases hc : interval ≤ now - lc
    · rw [if_pos hc]
      simp only []
      rw [if_pos hmid]
      exact ⟨rfl, rfl, rfl, rfl⟩
    · rw [if_neg hc]
      simp only []
      rw [if_pos hmid]
      exact ⟨rfl, rfl, rfl, rfl⟩

/-- Witness for C5 at the concrete mid-transition replacement scenario. -/
theorem C5_midtransition_rescan_witness :
    ((viewer_tick 3 5 ["b"] (fun _ => true) 6 ⟨["a"], 3, none, some "a", some 3⟩).nextImg
       = some "b" ∧
     (viewer_tick 3 5 ["b"] (fun _ => true) 6 ⟨["a"], 3, none, some "a", some 3⟩).transitionStart
       = some 6) ∧
    ((loopmode_tick true 3 5 ["a"] (fun _ => true) 6
        ⟨none, some "a", some 3, 3, ["a"], 0, 1⟩).nextImg = some "a" ∧
     (loopmode_tick true 3 5 ["a"] (fun _ => true) 6
        ⟨none, some "a", some 3, 3, ["a"], 0, 1⟩).imageList = ["a"] ∧
     (loopmode_tick true 3 5 ["a"] (fun _ => true) 6
        ⟨none, some "a", some 3, 3, ["a"], 0, 1⟩).currentIndex = 0 ∧
     (loopmode_tick true 3 5 ["a"] (fun _ => true) 6
        ⟨none, some "a", some 3, 3, ["a"], 0, 1⟩).transitionStart = some 3) := by
  constructor
  · exact C5_midtransition_rescan.1 3 5 ["b"] (fun _ => true) 6
      ⟨["a"], 3, none, some "a", some 3⟩ 3 "b" rfl (by norm_num) (by norm_num)
      (by norm_num) (by decide)
  · exact C5_midtransition_rescan.2 true 3 5 ["a"] (fun _ => true) 6
      ⟨none, some "a", some 3, 3, ["a"], 0, 1⟩ 3 rfl (by norm_num)

/-! ## C7: yo-yo boundary reflection -/

theorem yoyo_advance_spec (catalog : List String) (hne : catalog ≠ [])
    (idx dir : ℤ) (h0 : -1 ≤ idx) (h1 : idx ≤ (catalog.length : ℤ))
    (hdir : dir = 1 ∨ dir = -1) :
    (yoyo_advance catalog catalog idx dir).1 = catalog ∧
    0 ≤ (yoyo_advance catalog catalog idx dir).2.1 ∧
    (yoyo_advance catalog catalog idx dir).2.1 < (catalog.length : ℤ) ∧
    ((yoyo_advance catalog catalog idx dir).2.2.1 = 1 ∨
      (yoyo_advance catalog catalog idx dir).2.2.1 = -1) ∧
    (((yoyo_advance catalog catalog idx dir).2.2.1 ≠ dir) ↔
      ((catalog.length : ℤ) ≤ idx + dir ∨ idx + dir < 0)) ∧
    ((catalog.length : ℤ) ≤ idx + dir →
      (yoyo_advance catalog catalog idx dir).2.1 = (catalog.length : ℤ) - 1) ∧
    (idx + dir < 0 → (yoyo_advance catalog catalog idx dir).2.1 = 0) ∧
    (0 ≤ idx + dir → idx + dir < (catalog.length : ℤ) →
      (yoyo_advance catalog catalog idx dir).2.1 = idx + dir ∧
      (yoyo_advance catalog catalog idx dir).2.2.1 = dir) := by
  have hlen : 1 ≤ (catalog.length : ℤ) := by
    cases catalog with
    | nil => exact absurd rfl hne
    | cons c cs => simp
  have hemp : catalog.isEmpty = false := by
    cases catalog with
    | nil => exact absurd rfl hne
    | cons c cs => rfl
  unfold yoyo_advance
  rw [if_neg (by simp [hemp])]
  simp only [hemp]
  rw [if_neg (by simp)]
  by_cases hup : (catalog.length : ℤ) ≤ idx + dir
  · rw [if_pos hup]
    refine ⟨rfl, by simp <;> omega, by simp <;> omega, by simp, ?_, fun _ => rfl,
      fun hlow => by omega, fun hge hlt => absurd hup (by omega)⟩
    simp only []
    constructor
    · intro _
      exact Or.inl hup
    · intro _
      rcases hdir with h | h <;> (subst h; omega)
  · rw [if_neg hup]
    by_cases hlow : idx + dir < 0
    · rw [if_pos hlow]
      refine ⟨rfl, by simp, by simp <;> omega, by simp, ?_, fun h => absurd h hup,
        fun _ => rfl, fun hge _ => absurd hlow (by omega)⟩
      simp only []
      constructor
      · intro _
        exact Or.inr hlow
      · intro _
        rcases hdir with h | h <;> (subst h; omega)
    · rw [if_neg hlow]
      refine ⟨rfl, by simp <;> omega, by simp <;> omega, by simpa using hdir, ?_,
        fun h => absurd h hup, fun h => absurd h hlow, fun _ _ => ⟨rfl, rfl⟩⟩
      simp only []
      constructor
      · intro h
        exact absurd rfl h
      · intro h
        rcases h with h | h
        · exact absurd h hup
        · exact absurd h hlow

theorem yoyo_advance_reload (catalog : List String) (idx : ℤ) :
    yoyo_advance catalog [] idx 1 = yoyo_advance catalog catalog (-1) 1 := by
  unfold yoyo_advance
  norm_num

theorem yoyo_state_inv (catalog : List String) (hne : catalog ≠ []) :
    ∀ k : ℕ, 1 ≤ k →
    (yoyo_state catalog k).1 = catalog ∧
    0 ≤ (yoyo_state catalog k).2.1 ∧
    (yoyo_state catalog k).2.1 < (catalog.length : ℤ) ∧
    ((yoyo_state catalog k).2.2 = 1 ∨ (yoyo_state catalog k).2.2 = -1) := by
  have hemp : catalog.isEmpty = false := by
    cases catalog with
    | nil => exact absurd rfl hne
    | cons c cs => rfl
  have hlen : 1 ≤ (catalog.length : ℤ) := by
    cases catalog with
    | nil => exact absurd rfl hne
    | cons c cs => simp
  intro k
  induction k with
  | zero => omega
  | succ k ih =>
    intro _
    by_cases hk : 1 ≤ k
    · obtain ⟨hcat, hged, hlt, hdir⟩ := ih hk
      have hspec := yoyo_advance_spec catalog hne (yoyo_state catalog k).2.1
        (yoyo_state catalog k).2.2 (by omega) (by omega) hdir
      simp only [yoyo_state, hcat]
      exact ⟨hspec.1, hspec.2.1, hspec.2.2.1, hspec.2.2.2.1⟩
    · have hk0 : k = 0 := by omega
      subst hk0
      have hspec := yoyo_advance_spec catalog hne (-1) 1 (by omega) (by omega)
        (Or.inl rfl)
      simp only [yoyo_state]
      rw [yoyo_advance_reload catalog (-1)]
      exact ⟨hspec.1, hspec.2.1, hspec.2.2.1, hspec.2.2.2.1⟩

/-- C7: in yo-yo mode over a fixed non-empty catalog of size `N`, every
selection step keeps the index within `[0, N-1]`, and the direction flips
exactly when a step would move the index past either boundary, the index
being clamped to that boundary on the step on which it flips (and advancing
by `direction` with an unchanged direction otherwise). -/
theorem C7_yoyo_reflection (catalog : List String) (hne : catalog ≠ []) :
    (∀ k : ℕ, 1 ≤ k →
       0 ≤ (yoyo_state catalog k).2.1 ∧
       (yoyo_state catalog k).2.1 < (catalog.length : ℤ)) ∧
    (∀ idx dir : ℤ, 0 ≤ idx → idx < (catalog.length : ℤ) → dir = 1 ∨ dir = -1 →
       (0 ≤ (yoyo_advance catalog catalog idx dir).2.1 ∧
        (yoyo_advance catalog catalog idx dir).2.1 < (catalog.length : ℤ)) ∧
       (((yoyo_advance catalog catalog idx dir).2.2.1 ≠ dir) ↔
         ((catalog.length : ℤ) ≤ idx + dir ∨ idx + dir < 0)) ∧
       ((catalog.length : ℤ) ≤ idx + dir →
         (yoyo_advance catalog catalog idx dir).2.1 = (catalog.length : ℤ) - 1) ∧
       (idx + dir < 0 → (yoyo_advance catalog catalog idx dir).2.1 = 0) ∧
       (0 ≤ idx + dir → idx + dir < (catalog.length : ℤ) →
         (yoyo_advance catalog catalog idx dir).2.1 = idx + dir ∧
         (yoyo_advance catalog catalog idx dir).2.2.1 = dir)) := by
  constructor
  · intro k hk
    obtain ⟨_, h1, h2, _⟩ := yoyo_state_inv catalog hne k hk
    exact ⟨h1, h2⟩
  · intro idx dir hge hlt hdir
    obtain ⟨_, h1, h2, _, h4, h5, h6, h7⟩ :=
      yoyo_advance_spec catalog hne idx dir (by omega) (by omega) hdir
    exact ⟨⟨h1, h2⟩, h4, h5, h6, h7⟩

/-- Witness for C7 at the concrete two-element catalog `["a", "b"]`. -/
theorem C7_yoyo_reflection_witness :
    (0 ≤ (yoyo_state ["a", "b"] 1).2.1 ∧
     (yoyo_state ["a", "b"] 1).2.1 < (List.length ["a", "b"] : ℤ)) ∧
    ((0 ≤ (yoyo_advance ["a", "b"] ["a", "b"] 1 1).2.1 ∧
      (yoyo_advance ["a", "b"] ["a", "b"] 1 1).2.1 < (List.length ["a", "b"] : ℤ)) ∧
     (((yoyo_advance ["a", "b"] ["a", "b"] 1 1).2.2.1 ≠ 1) ↔
       ((List.length ["a", "b"] : ℤ) ≤ 1 + 1 ∨ (1 : ℤ) + 1 < 0))) := by
  have h := C7_yoyo_reflection ["a", "b"] (by decide)
  refine ⟨h.1 1 (by norm_num), ?_⟩
  obtain ⟨hb, hiff, _⟩ := h.2 1 1 (by norm_num) (by norm_num) (Or.inl rfl)
  exact ⟨hb, hiff⟩

/-! ## C8: the catalog scanner -/

/-- C8: the scanner returns exactly the walked files whose extension
case-insensitively matches the allow-list `{.png, .jpg, .jpeg, .bmp, .gif}`
(as a permutation of the filtered enumeration, with membership exactly the
allow-listed files), sorted ascending by last-modification time, and returns
the empty sequence when the directory enumerates to nothing (empty or
inaccessible directory). -/
theorem C8_scanner (walk : List FsEntry) :
    (get_image_files walk).Perm (walk.filter (fun e => is_image_file e.name)) ∧
    (∀ e, e ∈ get_image_files walk ↔ e ∈ walk ∧ is_image_file e.name = true) ∧
    List.Pairwise (fun a b : FsEntry => a.mtime ≤ b.mtime) (get_image_files walk) ∧
    get_image_files [] = [] := by
  have hperm : (get_image_files walk).Perm (walk.filter (fun e => is_image_file e.name)) :=
    List.mergeSort_perm _ _
  refine ⟨hperm, ?_, ?_, by simp [get_image_files]⟩
  · intro e
    rw [hperm.mem_iff, List.mem_filter]
  · have hs := @List.sorted_mergeSort FsEntry
      (fun a b : FsEntry => decide (a.mtime ≤ b.mtime))
      (fun a b c hab hbc => by
        simp only [decide_eq_true_eq] at hab hbc ⊢
        exact le_trans hab hbc)
      (fun a b => by
        simp only [Bool.or_eq_true, decide_eq_true_eq]
        exact le_total a.mtime b.mtime)
      (walk.filter (fun e => is_image_file e.name))
    unfold get_image_files
    exact hs.imp (fun h => by simpa using h)

/-! ## C4: transition endpoints and coverage monotonicity -/

theorem blend_one (src dst : Color) : blend 1 src dst = src := by
  cases src
  cases dst
  simp [blend]

theorem blend_zero (src dst : Color) : blend 0 src dst = dst := by
  cases src
  cases dst
  simp [blend]

theorem blit_zero (f : Frame) (r : BRect) (src : Color) : blit f r 0 src = f := by
  funext x y
  unfold blit
  split
  · rw [blend_zero]
  · rfl

theorem blit_one_pure (r : BRect) (src : Color) :
    blit baseFill r 1 src = pureFrame r src := by
  funext x y
  unfold blit pureFrame baseFill
  split
  · rw [blend_one]
  · rfl

theorem blend_n (a : ℚ) (src dst : Color) :
    (blend a src dst).n = a * src.n + (1 - a) * dst.n := rfl

theorem ne_nxtColor_of_n_eq_zero {c : Color} (h : c.n = 0) : c ≠ nxtColor := by
  intro he
  rw [he] at h
  simp [nxtColor] at h

theorem baseFill_n (x y : ℤ) : (baseFill x y).n = 0 := rfl

theorem blit_cur_n {f : Frame} (hf : ∀ x y, (f x y).n = 0) (r : BRect) (a : ℚ)
    (x y : ℤ) : ((blit f r a curColor) x y).n = 0 := by
  unfold blit
  split
  · rw [blend_n, hf x y]
    simp [curColor]
  · exact hf x y

theorem draw_faded_current_n (f0 : Frame) (hf : ∀ x y, (f0 x y).n = 0)
    (W H : ℕ) (cur : Option (ℕ × ℕ)) (a : ℚ) (x y : ℤ) :
    ((draw_faded_current f0 W H cur a) x y).n = 0 := by
  unfold draw_faded_current
  cases cur with
  | none => exact hf x y
  | some p =>
    obtain ⟨cw, ch⟩ := p
    exact blit_cur_n hf _ _ x y

theorem fade_current_alpha_zero : fade_current_alpha 0 = 255 := by
  unfold fade_current_alpha
  norm_num [pytrunc]

theorem fade_current_alpha_one : fade_current_alpha 1 = 0 := by
  unfold fade_current_alpha
  norm_num [pytrunc]

theorem fade_next_alpha_zero : fade_next_alpha 0 = 0 := by
  unfold fade_next_alpha
  norm_num [pytrunc]

theorem fade_next_alpha_one : fade_next_alpha 1 = 255 := by
  unfold fade_next_alpha
  norm_num [pytrunc]

theorem alphaFrac_255 : alphaFrac 255 = 1 := by
  norm_num [alphaFrac]

theorem alphaFrac_0 : alphaFrac 0 = 0 := by
  norm_num [alphaFrac]

theorem draw_faded_current_zero (f0 : Frame) (W H cw ch : ℕ) :
    draw_faded_current f0 W H (some (cw, ch)) 0
      = blit f0 ⟨centerOff W cw, centerOff H ch, cw, ch⟩ 1 curColor := by
  unfold draw_faded_current
  rw [fade_current_alpha_zero, alphaFrac_255]

theorem draw_faded_current_one (f0 : Frame) (W H : ℕ) (cur : Option (ℕ × ℕ)) :
    draw_faded_current f0 W H cur 1 = f0 := by
  unfold draw_faded_current
  cases cur with
  | none => rfl
  | some p =>
    obtain ⟨cw, ch⟩ := p
    rw [fade_current_alpha_one, alphaFrac_0]
    exact blit_zero f0 ⟨centerOff W cw, centerOff H ch, cw, ch⟩ curColor

theorem foldl_reveal {α : Type} (P : α → Bool) (R : α → BRect) (L : List α)
    (f : Frame) (x y : ℤ) :
    (L.foldl (fun g a => if P a then blit g (R a) 1 nxtColor else g) f) x y
      = if L.any (fun a => P a && (R a).mem x y) then nxtColor else f x y := by
  induction L generalizing f with
  | nil => simp
  | cons hd tl ih =>
    simp only [List.foldl_cons, List.any_cons]
    rw [ih]
    by_cases hP : P hd
    · by_cases hm : (R hd).mem x y
      · simp [hP, hm, blit, blend_one]
      · simp [hP, hm, blit]
    · simp [hP]

theorem centerOff_nonneg {S w : ℕ} (h : w ≤ S) : 0 ≤ centerOff S w := by
  unfold centerOff
  omega

theorem centerOff_add_le {S w : ℕ} (h : w ≤ S) : centerOff S w + w ≤ (S : ℤ) := by
  unfold centerOff
  omega

theorem subOff_eq_of_le {S w : ℕ} (h : w ≤ S) :
    subOff S w = (((S - w) / 2 : ℕ) : ℤ) := by
  unfold subOff
  rw [show (S : ℤ) - (w : ℤ) = ((S - w : ℕ) : ℤ) by omega]
  exact (Int.ofNat_fdiv (S - w) 2).symm

theorem subOff_nonneg {S w : ℕ} (h : w ≤ S) : 0 ≤ subOff S w := by
  rw [subOff_eq_of_le h]
  omega

theorem subOff_add_le {S w : ℕ} (h : w ≤ S) : subOff S w + w ≤ (S : ℤ) := by
  rw [subOff_eq_of_le h]
  omega

theorem subOff_self (S : ℕ) : subOff S S = 0 := by
  rw [subOff_eq_of_le (le_refl S)]
  simp

theorem draw_fade_zero (W H cw ch nw nh : ℕ) :
    draw_fade baseFill W H (some (cw, ch)) (some (nw, nh)) 0
      = pureFrame ⟨centerOff W cw, centerOff H ch, cw, ch⟩ curColor := by
  unfold draw_fade
  rw [draw_faded_current_zero, fade_next_alpha_zero, alphaFrac_0, blit_one_pure]
  exact blit_zero _ _ _

theorem draw_fade_one (W H cw ch nw nh : ℕ) :
    draw_fade baseFill W H (some (cw, ch)) (some (nw, nh)) 1
      = pureFrame ⟨centerOff W nw, centerOff H nh, nw, nh⟩ nxtColor := by
  unfold draw_fade
  rw [draw_faded_current_one, fade_next_alpha_one, alphaFrac_255]
  exact blit_one_pure _ _

theorem roll_offset_one (dim : ℕ) : roll_offset dim 1 = 0 := by
  unfold roll_offset
  norm_num [pytrunc]

theorem roll_rect_one (W H nw nh : ℕ) (dir : RollDir) :
    roll_rect W H nw nh dir 1 = ⟨centerOff W nw, centerOff H nh, nw, nh⟩ := by
  cases dir <;> simp [roll_rect, roll_offset_one]

theorem draw_roll_zero (W H cw ch nw nh : ℕ) (dir : RollDir) :
    draw_roll_transition baseFill W H (some (cw, ch)) (some (nw, nh)) 0 dir
      = pureFrame ⟨centerOff W cw, centerOff H ch, cw, ch⟩ curColor := by
  unfold draw_roll_transition
  rw [draw_faded_current_zero, fade_next_alpha_zero, alphaFrac_0, blit_one_pure]
  exact blit_zero _ _ _

theorem draw_roll_one (W H cw ch nw nh : ℕ) (dir : RollDir) :
    draw_roll_transition baseFill W H (some (cw, ch)) (some (nw, nh)) 1 dir
      = pureFrame ⟨centerOff W nw, centerOff H nh, nw, nh⟩ nxtColor := by
  show blit (draw_faded_current baseFill W H (some (cw, ch)) 1)
      (roll_rect W H nw nh dir 1) (alphaFrac (fade_next_alpha 1)) nxtColor = _
  rw [draw_faded_current_one, fade_next_alpha_one, alphaFrac_255, roll_rect_one]
  exact blit_one_pure _ _

theorem dissolve_revealed_count_zero (total : ℕ) :
    dissolve_revealed_count total 0 = 0 := by
  unfold dissolve_revealed_count
  norm_num [pytrunc]

theorem dissolve_revealed_count_one (total : ℕ) :
    dissolve_revealed_count total 1 = total := by
  unfold dissolve_revealed_count
  rw [mul_one, show ((total : ℚ)) = (((total : ℤ) : ℚ)) by push_cast; ring,
    pytrunc_intCast]

theorem draw_dissolve_zero (W H cw ch nw nh : ℕ) (blocks : List Block) :
    draw_dissolve baseFill W H (some (cw, ch)) (some (nw, nh)) 0 blocks
      = pureFrame ⟨centerOff W cw, centerOff H ch, cw, ch⟩ curColor := by
  unfold draw_dissolve
  rw [dissolve_revealed_count_zero]
  simp only [Int.toNat_zero, List.take_zero, List.foldl_nil]
  exact blit_one_pure _ _

theorem paint_guard_zero (W H nw nh : ℕ) (hnh : nh ≤ H) (dir : PaintDir)
    (yy : ℕ) : paint_guard W H nw nh (subOff H nh) dir 0 yy = false := by
  unfold paint_guard
  have hcut : paint_x_cut W H 0 ((paint_cut_row dir nh yy : ℚ) + ((subOff H nh : ℤ) : ℚ)) ≤ 0 := by
    unfold paint_x_cut
    apply pytrunc_nonpos
    rw [zero_mul, zero_sub, neg_nonpos]
    have h1 : (0 : ℚ) ≤ (paint_cut_row dir nh yy : ℚ) := by positivity
    have h2 : (0 : ℚ) ≤ ((subOff H nh : ℤ) : ℚ) := by
      exact_mod_cast subOff_nonneg hnh
    exact add_nonneg h1 h2
  rw [decide_eq_false (not_lt.mpr hcut), Bool.false_and]

theorem draw_paint_zero (W H cw ch nw nh : ℕ) (hnh : nh ≤ H) (dir : PaintDir) :
    draw_paint_transition baseFill W H (some (cw, ch)) (some (nw, nh)) 0 dir
      = pureFrame ⟨centerOff W cw, centerOff H ch, cw, ch⟩ curColor := by
  show (paint_rows dir nh).foldl
      (fun g y => if paint_guard W H nw nh (subOff H nh) dir 0 y then
          blit g (paint_rect W H nw nh (subOff W nw) (subOff H nh) dir 0 y) 1 nxtColor
        else g) (draw_faded_current baseFill W H (some (cw, ch)) 0) = _
  rw [draw_faded_current_zero, blit_one_pure]
  funext x y
  rw [foldl_reveal]
  have hany : ((paint_rows dir nh).any (fun yy =>
      paint_guard W H nw nh (subOff H nh) dir 0 yy &&
      (paint_rect W H nw nh (subOff W nw) (subOff H nh) dir 0 yy).mem x y)) = false := by
    rw [List.any_eq_false]
    intro yy _
    rw [paint_guard_zero W H nw nh hnh dir yy, Bool.false_and]
    simp
  rw [hany]
  simp

theorem subOff_le_sub {S w : ℕ} (h : w ≤ S) : subOff S w ≤ (S : ℤ) - w := by
  rw [subOff_eq_of_le h]
  omega

theorem paint_x_cut_one_eq (W H nh : ℕ) (cr : ℕ) :
    paint_x_cut W H 1 ((cr : ℚ) + ((subOff H nh : ℤ) : ℚ))
      = (W : ℤ) + (H : ℤ) - (cr : ℤ) - subOff H nh := by
  unfold paint_x_cut
  rw [one_mul,
    show ((W : ℚ) + (H : ℚ)) - ((cr : ℚ) + ((subOff H nh : ℤ) : ℚ))
      = ((((W : ℤ) + (H : ℤ) - (cr : ℤ) - subOff H nh) : ℤ) : ℚ) by push_cast; ring,
    pytrunc_intCast]

theorem paint_rows_mem_iff (dir : PaintDir) (nh : ℕ) (yy : ℕ) :
    yy ∈ paint_rows dir nh ↔ yy < nh := by
  cases dir <;> simp only [paint_rows, List.mem_range, List.mem_map]
  case BL2TR =>
    constructor
    · rintro ⟨i, hi, rfl⟩
      omega
    · intro hy
      exact ⟨nh - 1 - yy, by omega, by omega⟩
  case BR2TL =>
    constructor
    · rintro ⟨i, hi, rfl⟩
      omega
    · intro hy
      exact ⟨nh - 1 - yy, by omega, by omega⟩

theorem paint_cut_row_lt (dir : PaintDir) {nh yy : ℕ} (h : yy < nh) :
    paint_cut_row dir nh yy < nh := by
  cases dir <;> simp only [paint_cut_row] <;> omega

theorem paint_reveal_width_one (W H nw nh : ℕ) (hnw : nw ≤ W) (hnh : nh ≤ H)
    (dir : PaintDir) (yy : ℕ) (hcr : paint_cut_row dir nh yy < nh) :
    paint_reveal_width W H nw nh (subOff H nh) dir 1 yy = nw := by
  unfold paint_reveal_width
  rw [paint_x_cut_one_eq]
  have h1 := subOff_le_sub hnh
  have h2 := subOff_nonneg hnh
  omega

theorem paint_guard_one (W H nw nh : ℕ) (hnw : nw ≤ W) (hnh : nh ≤ H)
    (hnw0 : 0 < nw) (dir : PaintDir) (yy : ℕ)
    (hcr : paint_cut_row dir nh yy < nh) :
    paint_guard W H nw nh (subOff H nh) dir 1 yy = true := by
  unfold paint_guard
  rw [paint_reveal_width_one W H nw nh hnw hnh dir yy hcr, paint_x_cut_one_eq]
  have h1 := subOff_le_sub hnh
  have h2 := subOff_nonneg hnh
  rw [decide_eq_true (show (0 : ℤ) < (W : ℤ) + (H : ℤ) - (paint_cut_row dir nh yy : ℤ) - subOff H nh by omega),
    decide_eq_true hnw0, Bool.and_self]

theorem paint_rect_one (W H nw nh : ℕ) (hnw : nw ≤ W) (hnh : nh ≤ H)
    (dir : PaintDir) (yy : ℕ) (hcr : paint_cut_row dir nh yy < nh) :
    paint_rect W H nw nh (subOff W nw) (subOff H nh) dir 1 yy
      = ⟨subOff W nw, subOff H nh + (yy : ℤ), nw, 1⟩ := by
  have hrw := paint_reveal_width_one W H nw nh hnw hnh dir yy hcr
  cases dir <;> simp [paint_rect, hrw]

theorem paint_any_one (W H nw nh : ℕ) (hnw : nw ≤ W) (hnh : nh ≤ H)
    (dir : PaintDir) (x y : ℤ) :
    ((paint_rows dir nh).any (fun yy =>
        paint_guard W H nw nh (subOff H nh) dir 1 yy &&
        (paint_rect W H nw nh (subOff W nw) (subOff H nh) dir 1 yy).mem x y))
      = BRect.mem ⟨subOff W nw, subOff H nh, nw, nh⟩ x y := by
  by_cases hb : BRect.mem ⟨subOff W nw, subOff H nh, nw, nh⟩ x y = true
  · rw [hb, List.any_eq_true]
    have hmem : subOff W nw ≤ x ∧ x < subOff W nw + nw ∧
        subOff H nh ≤ y ∧ y < subOff H nh + nh := by
      simpa [BRect.mem, and_assoc] using hb
    obtain ⟨hx1, hx2, hy1, hy2⟩ := hmem
    have hnw0 : 0 < nw := by omega
    have hyy : ((y - subOff H nh).toNat : ℤ) = y - subOff H nh := by omega
    have hylt : (y - subOff H nh).toNat < nh := by omega
    refine ⟨(y - subOff H nh).toNat, (paint_rows_mem_iff dir nh _).mpr hylt, ?_⟩
    rw [paint_guard_one W H nw nh hnw hnh hnw0 dir _ (paint_cut_row_lt dir hylt),
      Bool.true_and,
      paint_rect_one W H nw nh hnw hnh dir _ (paint_cut_row_lt dir hylt)]
    simp only [BRect.mem, Bool.and_eq_true, decide_eq_true_eq]
    refine ⟨⟨⟨hx1, ?_⟩, ?_⟩, ?_⟩ <;> omega
  · rw [Bool.not_eq_true] at hb
    rw [hb, List.any_eq_false]
    intro yy hyy
    have hylt : yy < nh := (paint_rows_mem_iff dir nh yy).mp hyy
    intro hcontra
    rw [Bool.and_eq_true] at hcontra
    obtain ⟨hg, hm⟩ := hcontra
    rw [paint_rect_one W H nw nh hnw hnh dir yy (paint_cut_row_lt dir hylt)] at hm
    simp only [BRect.mem, Bool.and_eq_true, decide_eq_true_eq] at hm
    have : BRect.mem ⟨subOff W nw, subOff H nh, nw, nh⟩ x y = true := by
      simp only [BRect.mem, Bool.and_eq_true, decide_eq_true_eq]
      refine ⟨⟨⟨?_, ?_⟩, ?_⟩, ?_⟩ <;> omega
    rw [this] at hb
    exact Bool.true_eq_false.mp hb

theorem draw_paint_one (W H cw ch nw nh : ℕ) (hnw : nw ≤ W) (hnh : nh ≤ H)
    (dir : PaintDir) :
    draw_paint_transition baseFill W H (some (cw, ch)) (some (nw, nh)) 1 dir
      = pureFrame ⟨subOff W nw, subOff H nh, nw, nh⟩ nxtColor := by
  show (paint_rows dir nh).foldl
      (fun g y => if paint_guard W H nw nh (subOff H nh) dir 1 y then
          blit g (paint_rect W H nw nh (subOff W nw) (subOff H nh) dir 1 y) 1 nxtColor
        else g) (draw_faded_current baseFill W H (some (cw, ch)) 1) = _
  rw [draw_faded_current_one]
  funext x y
  rw [foldl_reveal, paint_any_one W H nw nh hnw hnh dir x y]
  unfold pureFrame baseFill
  split <;> rfl

theorem BRect.mem_iff (r : BRect) (x y : ℤ) :
    r.mem x y = true ↔ r.ox ≤ x ∧ x < r.ox + r.w ∧ r.oy ≤ y ∧ y < r.oy + r.h := by
  simp [BRect.mem, and_assoc]

theorem BRect.mem_mk_iff (ox oy : ℤ) (w h : ℕ) (x y : ℤ) :
    BRect.mem ⟨ox, oy, w, h⟩ x y = true ↔
      ox ≤ x ∧ x < ox + w ∧ oy ≤ y ∧ y < oy + h := by
  simp [BRect.mem, and_assoc]

theorem perm_any_eq {α : Type} {l1 l2 : List α} (h : l1.Perm l2) (p : α → Bool) :
    l1.any p = l2.any p := by
  by_cases h2 : l2.any p = true
  · rw [h2]
    rw [List.any_eq_true] at h2
    obtain ⟨a, ha, hp⟩ := h2
    exact List.any_eq_true.mpr ⟨a, h.mem_iff.mpr ha, hp⟩
  · rw [Bool.not_eq_true] at h2
    rw [h2]
    rw [List.any_eq_false] at h2
    rw [List.any_eq_false]
    intro a ha
    exact h2 a (h.mem_iff.mp ha)

theorem generate_blocks_bound {W H : ℕ} {blk : Block}
    (h : blk ∈ generate_dissolve_blocks W H 20) :
    blk.x + blk.w ≤ W ∧ blk.y + blk.h ≤ H := by
  unfold generate_dissolve_blocks pyrange at h
  simp only [List.mem_flatMap, List.mem_map, List.mem_range] at h
  obtain ⟨yv, ⟨j, hj, rfl⟩, ⟨i, hi, rfl⟩⟩ := h
  constructor <;> simp only [] <;> omega

theorem generate_blocks_cover (W H : ℕ) (x y : ℤ) (hx : 0 ≤ x) (hx2 : x < (W : ℤ))
    (hy : 0 ≤ y) (hy2 : y < (H : ℤ)) :
    ∃ blk ∈ generate_dissolve_blocks W H 20, (blockRect blk).mem x y = true := by
  refine ⟨⟨(x.toNat / 20) * 20, (y.toNat / 20) * 20,
    min 20 (W - (x.toNat / 20) * 20), min 20 (H - (y.toNat / 20) * 20)⟩, ?_, ?_⟩
  · unfold generate_dissolve_blocks pyrange
    simp only [List.mem_flatMap, List.mem_map, List.mem_range]
    exact ⟨(y.toNat / 20) * 20, ⟨y.toNat / 20, by omega, rfl⟩,
      (x.toNat / 20) * 20, ⟨x.toNat / 20, by omega, rfl⟩, rfl⟩
  · simp only [blockRect]
    rw [BRect.mem_mk_iff]
    refine ⟨?_, ?_, ?_, ?_⟩ <;> omega

theorem block_in_next_full {W H : ℕ} {blk : Block} (hx : blk.x + blk.w ≤ W)
    (hy : blk.y + blk.h ≤ H) : block_in_next W H W H blk = true := by
  unfold block_in_next
  rw [subOff_self, subOff_self]
  simp only [sub_zero, Bool.not_eq_true', Bool.or_eq_false_iff,
    decide_eq_false_iff_not]
  refine ⟨⟨⟨?_, ?_⟩, ?_⟩, ?_⟩ <;> omega

theorem draw_dissolve_one_full (W H cw ch : ℕ) (hcw : cw ≤ W) (hch : ch ≤ H)
    (blocks : List Block) (hperm : blocks.Perm (generate_dissolve_blocks W H 20)) :
    draw_dissolve baseFill W H (some (cw, ch)) (some (W, H)) 1 blocks
      = pureFrame ⟨0, 0, W, H⟩ nxtColor := by
  show (blocks.take (dissolve_revealed_count blocks.length 1).toNat).foldl
      (fun g blk => if block_in_next W H W H blk then blit g (blockRect blk) 1 nxtColor
        else g)
      (blit baseFill ⟨centerOff W cw, centerOff H ch, cw, ch⟩ 1 curColor) = _
  rw [dissolve_revealed_count_one,
    show ((blocks.length : ℤ)).toNat = blocks.length by omega,
    List.take_length, blit_one_pure]
  funext x y
  rw [foldl_reveal,
    perm_any_eq hperm (fun blk => block_in_next W H W H blk && (blockRect blk).mem x y)]
  by_cases hbig : (0 : ℤ) ≤ x ∧ x < (W : ℤ) ∧ 0 ≤ y ∧ y < (H : ℤ)
  · obtain ⟨blk, hmem, hbm⟩ :=
      generate_blocks_cover W H x y hbig.1 hbig.2.1 hbig.2.2.1 hbig.2.2.2
    have hb := generate_blocks_bound hmem
    have hany : ((generate_dissolve_blocks W H 20).any
        (fun blk => block_in_next W H W H blk && (blockRect blk).mem x y)) = true :=
      List.any_eq_true.mpr ⟨blk, hmem, by
        rw [block_in_next_full hb.1 hb.2, Bool.true_and]
        exact hbm⟩
    rw [hany]
    have hm : BRect.mem ⟨0, 0, W, H⟩ x y = true := by
      rw [BRect.mem_mk_iff]
      refine ⟨?_, ?_, ?_, ?_⟩ <;> omega
    unfold pureFrame
    rw [if_pos hm, if_pos rfl]
  · have hany : ((generate_dissolve_blocks W H 20).any
        (fun blk => block_in_next W H W H blk && (blockRect blk).mem x y)) = false := by
      rw [List.any_eq_false]
      intro blk hmem hcontra
      rw [Bool.and_eq_true] at hcontra
      have hb := generate_blocks_bound hmem
      simp only [blockRect] at hcontra
      have hm := (BRect.mem_mk_iff _ _ _ _ x y).mp hcontra.2
      exact hbig (by omega)
    rw [hany]
    have hcm : BRect.mem ⟨centerOff W cw, centerOff H ch, cw, ch⟩ x y = false := by
      rw [Bool.eq_false_iff]
      intro hmm
      have h1 := centerOff_nonneg hcw
      have h2 := centerOff_add_le hcw
      have h3 := centerOff_nonneg hch
      have h4 := centerOff_add_le hch
      have hm := (BRect.mem_mk_iff _ _ _ _ x y).mp hmm
      exact hbig (by omega)
    have hbm : BRect.mem ⟨0, 0, W, H⟩ x y = false := by
      rw [Bool.eq_false_iff]
      intro hmm
      have hm := (BRect.mem_mk_iff _ _ _ _ x y).mp hmm
      exact hbig (by omega)
    unfold pureFrame
    rw [if_neg (by simp), if_neg (by rw [hcm]; simp), if_neg (by rw [hbm]; simp)]

theorem mem_take_mono {α : Type} {l : List α} {m n : ℕ} (hmn : m ≤ n) {z : α}
    (hz : z ∈ l.take m) : z ∈ l.take n := by
  have he : (l.take n).take m = l.take m := by
    rw [List.take_take, min_eq_left hmn]
  rw [← he] at hz
  exact List.mem_of_mem_take hz

theorem foldl_reveal_mono {α : Type} (P1 P2 : α → Bool) (R1 R2 : α → BRect)
    (L1 L2 : List α) (f1 f2 : Frame)
    (hsub : ∀ z ∈ L1, z ∈ L2)
    (himp : ∀ z, ∀ x y : ℤ,
      (P1 z && (R1 z).mem x y) = true → (P2 z && (R2 z).mem x y) = true)
    (hf1 : ∀ x y, (f1 x y).n = 0) (x y : ℤ)
    (hx : (L1.foldl (fun g a => if P1 a then blit g (R1 a) 1 nxtColor else g) f1) x y
      = nxtColor) :
    (L2.foldl (fun g a => if P2 a then blit g (R2 a) 1 nxtColor else g) f2) x y
      = nxtColor := by
  rw [foldl_reveal] at hx ⊢
  by_cases h1 : (L1.any (fun a => P1 a && (R1 a).mem x y)) = true
  · obtain ⟨z, hz, hp⟩ := List.any_eq_true.mp h1
    rw [List.any_eq_true.mpr ⟨z, hsub z hz, himp z x y hp⟩]
    rfl
  · rw [Bool.not_eq_true] at h1
    rw [h1] at hx
    simp only [Bool.false_eq_true, if_false] at hx
    exact absurd hx (ne_nxtColor_of_n_eq_zero (hf1 x y))

theorem dissolve_count_mono (total : ℕ) {a b : ℚ} (hab : a ≤ b) :
    (dissolve_revealed_count total a).toNat
      ≤ (dissolve_revealed_count total b).toNat := by
  unfold dissolve_revealed_count
  have h := pytrunc_mono
    (mul_le_mul_of_nonneg_left hab (by positivity : (0 : ℚ) ≤ (total : ℚ)))
  omega

theorem draw_dissolve_mono (W H : ℕ) (cur : Option (ℕ × ℕ)) (nw nh : ℕ)
    (blocks : List Block) {a b : ℚ} (hab : a ≤ b) (x y : ℤ)
    (hx : draw_dissolve baseFill W H cur (some (nw, nh)) a blocks x y = nxtColor) :
    draw_dissolve baseFill W H cur (some (nw, nh)) b blocks x y = nxtColor := by
  cases cur with
  | none =>
    replace hx : ((blocks.take (dissolve_revealed_count blocks.length a).toNat).foldl
        (fun g blk => if block_in_next W H nw nh blk then blit g (blockRect blk) 1 nxtColor
          else g) baseFill) x y = nxtColor := hx
    show ((blocks.take (dissolve_revealed_count blocks.length b).toNat).foldl
        (fun g blk => if block_in_next W H nw nh blk then blit g (blockRect blk) 1 nxtColor
          else g) baseFill) x y = nxtColor
    exact foldl_reveal_mono _ _ _ _ _ _ _ _
      (fun z hz => mem_take_mono (dissolve_count_mono blocks.length hab) hz)
      (fun z x y hp => hp) baseFill_n x y hx
  | some p =>
    obtain ⟨cw, ch⟩ := p
    replace hx : ((blocks.take (dissolve_revealed_count blocks.length a).toNat).foldl
        (fun g blk => if block_in_next W H nw nh blk then blit g (blockRect blk) 1 nxtColor
          else g)
        (blit baseFill ⟨centerOff W cw, centerOff H ch, cw, ch⟩ 1 curColor)) x y
        = nxtColor := hx
    show ((blocks.take (dissolve_revealed_count blocks.length b).toNat).foldl
        (fun g blk => if block_in_next W H nw nh blk then blit g (blockRect blk) 1 nxtColor
          else g)
        (blit baseFill ⟨centerOff W cw, centerOff H ch, cw, ch⟩ 1 curColor)) x y
        = nxtColor
    exact foldl_reveal_mono _ _ _ _ _ _ _ _
      (fun z hz => mem_take_mono (dissolve_count_mono blocks.length hab) hz)
      (fun z x y hp => hp) (blit_cur_n baseFill_n _ _) x y hx

theorem paint_x_cut_mono (W H : ℕ) {a b : ℚ} (hab : a ≤ b) (r : ℚ) :
    paint_x_cut W H a r ≤ paint_x_cut W H b r := by
  unfold paint_x_cut
  apply pytrunc_mono
  have h : a * ((W : ℚ) + (H : ℚ)) ≤ b * ((W : ℚ) + (H : ℚ)) :=
    mul_le_mul_of_nonneg_right hab (by positivity)
  linarith

theorem paint_reveal_width_mono (W H nw nh : ℕ) (offY : ℤ) (dir : PaintDir)
    {a b : ℚ} (hab : a ≤ b) (yy : ℕ) :
    paint_reveal_width W H nw nh offY dir a yy
      ≤ paint_reveal_width W H nw nh offY dir b yy := by
  unfold paint_reveal_width
  have h := paint_x_cut_mono W H hab ((paint_cut_row dir nh yy : ℚ) + (offY : ℚ))
  omega

theorem paint_reveal_width_le (W H nw nh : ℕ) (offY : ℤ) (dir : PaintDir)
    (c : ℚ) (yy : ℕ) : paint_reveal_width W H nw nh offY dir c yy ≤ nw := by
  unfold paint_reveal_width
  omega

theorem paint_step_mono (W H nw nh : ℕ) (offX offY : ℤ) (dir : PaintDir)
    {a b : ℚ} (hab : a ≤ b) (yy : ℕ) (x y : ℤ)
    (h : (paint_guard W H nw nh offY dir a yy &&
          (paint_rect W H nw nh offX offY dir a yy).mem x y) = true) :
    (paint_guard W H nw nh offY dir b yy &&
      (paint_rect W H nw nh offX offY dir b yy).mem x y) = true := by
  rw [Bool.and_eq_true] at h ⊢
  obtain ⟨hg, hm⟩ := h
  have hcut := paint_x_cut_mono W H hab ((paint_cut_row dir nh yy : ℚ) + (offY : ℚ))
  have hrw := paint_reveal_width_mono W H nw nh offY dir hab yy
  have hrwb := paint_reveal_width_le W H nw nh offY dir b yy
  constructor
  · unfold paint_guard at hg ⊢
    simp only [Bool.and_eq_true, decide_eq_true_eq] at hg ⊢
    omega
  · cases dir <;>
      (simp only [paint_rect] at hm ⊢
       rw [BRect.mem_mk_iff] at hm ⊢) <;>
      omega

theorem draw_paint_mono (W H : ℕ) (cur : Option (ℕ × ℕ)) (nw nh : ℕ)
    (dir : PaintDir) {a b : ℚ} (hab : a ≤ b) (x y : ℤ)
    (hx : draw_paint_transition baseFill W H cur (some (nw, nh)) a dir x y = nxtColor) :
    draw_paint_transition baseFill W H cur (some (nw, nh)) b dir x y = nxtColor := by
  replace hx : ((paint_rows dir nh).foldl
      (fun g yy => if paint_guard W H nw nh (subOff H nh) dir a yy then
          blit g (paint_rect W H nw nh (subOff W nw) (subOff H nh) dir a yy) 1 nxtColor
        else g) (draw_faded_current baseFill W H cur a)) x y = nxtColor := hx
  show ((paint_rows dir nh).foldl
      (fun g yy => if paint_guard W H nw nh (subOff H nh) dir b yy then
          blit g (paint_rect W H nw nh (subOff W nw) (subOff H nh) dir b yy) 1 nxtColor
        else g) (draw_faded_current baseFill W H cur b)) x y = nxtColor
  exact foldl_reveal_mono _ _ _ _ _ _ _ _
    (fun z hz => hz)
    (fun z x y hp => paint_step_mono W H nw nh (subOff W nw) (subOff H nh) dir hab z x y hp)
    (draw_faded_current_n baseFill baseFill_n W H cur a) x y hx

theorem draw_transition_fade (W H : ℕ) (cur nxt : Option (ℕ × ℕ)) (a : ℚ)
    (blocks : List Block) (pdir : PaintDir) (rdir : RollDir) :
    draw_transition W H cur nxt a "Fade" blocks pdir rdir
      = draw_fade baseFill W H cur nxt a := by
  unfold draw_transition
  rw [if_pos rfl]

theorem draw_transition_dissolve (W H : ℕ) (cur nxt : Option (ℕ × ℕ)) (a : ℚ)
    (blocks : List Block) (pdir : PaintDir) (rdir : RollDir) :
    draw_transition W H cur nxt a "Dissolve" blocks pdir rdir
      = draw_dissolve baseFill W H cur nxt a blocks := by
  unfold draw_transition
  rw [if_neg (by decide), if_pos rfl]

theorem draw_transition_paint (W H : ℕ) (cur nxt : Option (ℕ × ℕ)) (a : ℚ)
    (blocks : List Block) (pdir : PaintDir) (rdir : RollDir) :
    draw_transition W H cur nxt a "Paint" blocks pdir rdir
      = draw_paint_transition baseFill W H cur nxt a pdir := by
  unfold draw_transition
  rw [if_neg (by decide), if_neg (by decide), if_pos rfl]

theorem draw_transition_roll (W H : ℕ) (cur nxt : Option (ℕ × ℕ)) (a : ℚ)
    (blocks : List Block) (pdir : PaintDir) (rdir : RollDir) :
    draw_transition W H cur nxt a "Roll" blocks pdir rdir
      = draw_roll_transition baseFill W H cur nxt a rdir := by
  unfold draw_transition
  rw [if_neg (by decide), if_neg (by decide), if_neg (by decide), if_pos rfl]

/-- C4 counterexample: with a 20×20 surface, a 20×20 current image and a
10×10 next image, the Dissolve effect at progress 1 renders the pixel
`(0, 0)` as pure *current* — the single 20×20 tile maps outside the smaller
next image and is skipped (lines 331-334), so the frame at progress 1 is not
"only the next image" (nor background) as the claim states. -/
theorem C4_counterexample :
    draw_transition 20 20 (some (20, 20)) (some (10, 10)) 1 "Dissolve"
      (generate_dissolve_blocks 20 20 20) PaintDir.TL2BR RollDir.TOP2DOWN 0 0
      = curColor ∧
    curColor ≠ nxtColor ∧ curColor ≠ bgColor := by
  refine ⟨?_, ?_, ?_⟩
  · rw [draw_transition_dissolve,
      show generate_dissolve_blocks 20 20 20 = [⟨0, 0, 20, 20⟩] from by decide]
    show ((([⟨0, 0, 20, 20⟩] : List Block).take
        (dissolve_revealed_count ([⟨0, 0, 20, 20⟩] : List Block).length 1).toNat).foldl
        (fun g blk => if block_in_next 20 20 10 10 blk then
            blit g (blockRect blk) 1 nxtColor
          else g)
        (blit baseFill ⟨centerOff 20 20, centerOff 20 20, 20, 20⟩ 1 curColor)) 0 0
      = curColor
    rw [dissolve_revealed_count_one]
    rw [show ((([⟨0, 0, 20, 20⟩] : List Block).length : ℤ)).toNat = 1 from by decide]
    rw [show (([⟨0, 0, 20, 20⟩] : List Block).take 1) = [⟨0, 0, 20, 20⟩] from by decide]
    rw [List.foldl_cons, if_neg (by decide), List.foldl_nil, blit_one_pure]
    unfold pureFrame
    rw [if_pos (by decide)]
  · intro h
    have h2 := congrArg Color.n h
    simp [curColor, nxtColor] at h2
  · intro h
    have h2 := congrArg Color.c h
    simp [curColor, bgColor] at h2

/-- C4 (amended): with both images present and no larger than the surface,
(i) every effect in {Fade, Dissolve, Paint, Roll} renders progress 0 as only
the current image; (ii) Fade, Paint and Roll render progress 1 as only the
next image (at that effect's placement of the next image); for Dissolve,
progress 1 is only the next image when the next image fills the surface —
in general tiles whose mapping falls outside a smaller next image are
skipped and the current image remains visible; and (iii) for Dissolve and
Paint (with the cached block shuffle and direction fixed), the set of
surface pixels showing the next image at progress `a` is contained in the
set at progress `b` whenever `a ≤ b`. -/
theorem C4_transition_endpoints (W H cw ch nw nh : ℕ)
    (hcw : cw ≤ W) (hch : ch ≤ H) (hnw : nw ≤ W) (hnh : nh ≤ H) :
    (∀ effect ∈ ["Fade", "Dissolve", "Paint", "Roll"],
       ∀ (blocks : List Block) (pdir : PaintDir) (rdir : RollDir),
       draw_transition W H (some (cw, ch)) (some (nw, nh)) 0 effect blocks pdir rdir
         = pureFrame ⟨centerOff W cw, centerOff H ch, cw, ch⟩ curColor) ∧
    (∀ (blocks : List Block) (pdir : PaintDir) (rdir : RollDir),
       draw_transition W H (some (cw, ch)) (some (nw, nh)) 1 "Fade" blocks pdir rdir
         = pureFrame ⟨centerOff W nw, centerOff H nh, nw, nh⟩ nxtColor ∧
       draw_transition W H (some (cw, ch)) (some (nw, nh)) 1 "Paint" blocks pdir rdir
         = pureFrame ⟨subOff W nw, subOff H nh, nw, nh⟩ nxtColor ∧
       draw_transition W H (some (cw, ch)) (some (nw, nh)) 1 "Roll" blocks pdir rdir
         = pureFrame ⟨centerOff W nw, centerOff H nh, nw, nh⟩ nxtColor) ∧
    (∀ (blocks : List Block) (pdir : PaintDir) (rdir : RollDir),
       blocks.Perm (generate_dissolve_blocks W H 20) →
       draw_transition W H (some (cw, ch)) (some (W, H)) 1 "Dissolve" blocks pdir rdir
         = pureFrame ⟨0, 0, W, H⟩ nxtColor) ∧
    (∀ (a b : ℚ), a ≤ b →
       ∀ (blocks : List Block) (pdir : PaintDir) (rdir : RollDir) (x y : ℤ),
       (draw_transition W H (some (cw, ch)) (some (nw, nh)) a "Dissolve" blocks pdir rdir x y
          = nxtColor →
        draw_transition W H (some (cw, ch)) (some (nw, nh)) b "Dissolve" blocks pdir rdir x y
          = nxtColor) ∧
       (draw_transition W H (some (cw, ch)) (some (nw, nh)) a "Paint" blocks pdir rdir x y
          = nxtColor →
        draw_transition W H (some (cw, ch)) (some (nw, nh)) b "Paint" blocks pdir rdir x y
          = nxtColor)) := by
  refine ⟨?_, ?_, ?_, ?_⟩
  · intro effect hmem blocks pdir rdir
    simp only [List.mem_cons, List.not_mem_nil, or_false] at hmem
    rcases hmem with rfl | rfl | rfl | rfl
    · rw [draw_transition_fade]
      exact draw_fade_zero W H cw ch nw nh
    · rw [draw_transition_dissolve]
      exact draw_dissolve_zero W H cw ch nw nh blocks
    · rw [draw_transition_paint]
      exact draw_paint_zero W H cw ch nw nh hnh pdir
    · rw [draw_transition_roll]
      exact draw_roll_zero W H cw ch nw nh rdir
  · intro blocks pdir rdir
    refine ⟨?_, ?_, ?_⟩
    · rw [draw_transition_fade]
      exact draw_fade_one W H cw ch nw nh
    · rw [draw_transition_paint]
      exact draw_paint_one W H cw ch nw nh hnw hnh pdir
    · rw [draw_transition_roll]
      exact draw_roll_one W H cw ch nw nh rdir
  · intro blocks pdir rdir hperm
    rw [draw_transition_dissolve]
    exact draw_dissolve_one_full W H cw ch hcw hch blocks hperm
  · intro a b hab blocks pdir rdir x y
    constructor
    · intro hx
      rw [draw_transition_dissolve] at hx ⊢
      exact draw_dissolve_mono W H (some (cw, ch)) nw nh blocks hab x y hx
    · intro hx
      rw [draw_transition_paint] at hx ⊢
      exact draw_paint_mono W H (some (cw, ch)) nw nh pdir hab x y hx

/-- Witness for C4 on a 40×40 surface with 40×40 images. -/
theorem C4_transition_endpoints_witness :
    draw_transition 40 40 (some (40, 40)) (some (40, 40)) 0 "Fade"
      [] PaintDir.TL2BR RollDir.TOP2DOWN
      = pureFrame ⟨centerOff 40 40, centerOff 40 40, 40, 40⟩ curColor :=
  (C4_transition_endpoints 40 40 40 40 40 40 (le_refl 40) (le_refl 40)
    (le_refl 40) (le_refl 40)).1 "Fade" (by decide) [] PaintDir.TL2BR RollDir.TOP2DOWN
